import Mathlib

/-!
Verification of the quantimizer strategy-execution engine
(`backend/app/services/strategy_execution.py` and
`backend/app/services/ml_inference.py`) against its specification.

The engine is embedded shallowly:
* SQL expression semantics (the generated scoring query) are modelled over
  `Option ℚ`, with `none` standing for SQL `NULL`; window aggregates ignore
  `NULL` inputs as PostgreSQL does.
* pandas `float` columns are modelled as `ℚ`, with `Option ℚ` where `NaN`
  can arise; `none` stands for `NaN`.
* The square root used by `STDDEV_SAMP` and by `pandas.Series.std` is kept
  as an explicit function parameter `sqrtF : ℚ → ℚ`; theorems assume only
  the properties of the real square root they need (`sqrtF 0 = 0`,
  positivity on positives), and witnesses instantiate it concretely.
-/

namespace Quantimizer

/-! ### SQL value semantics (NULL-propagating arithmetic)

The scoring query built by `_build_scored_sql` computes, per factor,
`(col - AVG(col) OVER (PARTITION BY event_date))
 / NULLIF(STDDEV_SAMP(col) OVER (PARTITION BY event_date), 0)`.
-/

/-- SQL addition: `NULL` propagates. -/
def sqlAdd : Option ℚ → Option ℚ → Option ℚ
  | some a, some b => some (a + b)
  | _, _ => none

/-- SQL subtraction: `NULL` propagates. -/
def sqlSub : Option ℚ → Option ℚ → Option ℚ
  | some a, some b => some (a - b)
  | _, _ => none

/-- The sum of a chain of SQL `+` terms (`NULL` poisons the whole sum);
the empty chain stands for the literal `0.0` the query builder emits when
no factor term is active. -/
def sqlSum (l : List (Option ℚ)) : Option ℚ :=
  l.foldr sqlAdd (some 0)

/-- SQL multiplication: `NULL` propagates. -/
def sqlMul : Option ℚ → Option ℚ → Option ℚ
  | some a, some b => some (a * b)
  | _, _ => none

/-- SQL division: `NULL` propagates.  A zero divisor would raise an error in
SQL; the generated query always guards the divisor with `NULLIF(_, 0)`, and
`sqlDiv_denominator_ne_zero`-style facts below show the zero branch is never
reached with that guard.  It is mapped to `none` to keep the function total. -/
def sqlDiv : Option ℚ → Option ℚ → Option ℚ
  | some a, some b => if b = 0 then none else some (a / b)
  | _, _ => none

/-- SQL `NULLIF(x, 0)`. -/
def nullif0 : Option ℚ → Option ℚ
  | none => none
  | some x => if x = 0 then none else some x

/-- The `AVG(col) OVER (PARTITION BY event_date)` window aggregate:
mean of the non-`NULL` values of the date partition, `NULL` if there are none. -/
def sqlAvg (xs : List (Option ℚ)) : Option ℚ :=
  let v := xs.filterMap id
  if v.isEmpty then none else some (v.sum / v.length)

/-- The square of `STDDEV_SAMP` (sample variance, `n - 1` denominator) over the
non-`NULL` values of the partition; `NULL` when fewer than two values exist. -/
def sampleVar (xs : List (Option ℚ)) : Option ℚ :=
  let v := xs.filterMap id
  if v.length < 2 then none
  else some ((v.map (fun x => (x - v.sum / v.length) ^ 2)).sum / (v.length - 1 : ℕ))

/-- `STDDEV_SAMP(col) OVER (PARTITION BY event_date)`: square root of the
sample variance, with the square root kept as a parameter. -/
def stddevSamp (sqrtF : ℚ → ℚ) (xs : List (Option ℚ)) : Option ℚ :=
  (sampleVar xs).map sqrtF

/-- The per-row standardized factor value computed by the generated SQL:
`(x - AVG(col)) / NULLIF(STDDEV_SAMP(col), 0)` over the date partition `xs`. -/
def zExpr (sqrtF : ℚ → ℚ) (xs : List (Option ℚ)) (x : Option ℚ) : Option ℚ :=
  sqlDiv (sqlSub x (sqlAvg xs)) (nullif0 (stddevSamp sqrtF xs))

/-! ### ML-score standardization (`_apply_ml_and_rank`)

`mu, sigma = ml_scores.mean(), ml_scores.std(ddof=0)` and
`z_ml = (ml_scores - mu) / sigma if sigma > 1e-12 else 0`-series. -/

/-- `pandas.Series.mean` of a score list (the date groups feeding it are
never empty; the empty-list value is irrelevant). -/
def listMean (xs : List ℚ) : ℚ := xs.sum / xs.length

/-- Population variance (`ddof=0`), the square of `pandas.Series.std(ddof=0)`. -/
def popVar (xs : List ℚ) : ℚ :=
  (xs.map (fun x => (x - listMean xs) ^ 2)).sum / xs.length

/-- The standardized ML score series of one date group:
`(s - mu) / sigma` when `sigma > 1e-12`, else exactly `0` for every row. -/
def mlZ (sqrtF : ℚ → ℚ) (scores : List ℚ) : List ℚ :=
  let mu := listMean scores
  let sigma := sqrtF (popVar scores)
  if (1 : ℚ) / 10 ^ 12 < sigma then scores.map (fun s => (s - mu) / sigma)
  else scores.map (fun _ => 0)

/-! ### Per-row final score algebra (`_build_scored_sql` z-terms)

`_build_scored_sql` keeps only the factors with `weight != 0.0` and emits,
for each, the term `max(weight, 0) * (-(z) if direction == "asc" else z)`
into one `+`-chain (the literal `0.0` when no term remains).  The
standardized value `z` of a factor for a row is a SQL value and can be
`NULL` (zero-variance date, `NULL` raw column); a `NULL` term poisons the
whole `final_score`.  Each factor's standardized value for the row is an
independent input held fixed. -/

/-- One factor's inputs to the final-score sum for one row: its raw weight,
its direction token, and its (possibly `NULL`) standardized value for the
row. -/
structure FactorTerm where
  weight : ℚ
  direction : String
  z : Option ℚ
deriving DecidableEq

/-- Direction handling of `_build_scored_sql`: ascending-favorable factors
negate the standardized value. -/
def signedZ (direction : String) (z : ℚ) : ℚ :=
  if direction = "asc" then -z else z

/-- The signed standardized value as a SQL value: `-(NULL)` is `NULL`. -/
def signedZOpt (direction : String) (z : Option ℚ) : Option ℚ :=
  z.map (signedZ direction)

/-- The `final_score` expression of the generated SQL for one row: factors
with weight exactly `0` are filtered out of the query; each remaining
factor contributes the SQL term `max(weight, 0) * signedZ`, and the terms
are summed with `NULL` propagation. -/
def finalScoreRow (ts : List FactorTerm) : Option ℚ :=
  sqlSum ((ts.filter (fun t => decide (t.weight ≠ 0))).map
    (fun t => sqlMul (some (max t.weight 0)) (signedZOpt t.direction t.z)))

/-! ### Rows, ranking, and the per-date group loop (`_apply_ml_and_rank`)

A row of the scored frame: dates are ordinals (`ℕ`), `close_price` and
`market_cap` can be `NULL`/`NaN`.  `final_score` is materialized as `ℚ`
(the ranking claims concern rows whose scores are defined). -/

structure Row where
  event_date : ℕ
  ticker : String
  close_price : Option ℚ
  market_cap : Option ℚ
  final_score : ℚ
deriving DecidableEq

/-- The descending comparison used by
`sort_values("final_score", ascending=False)`. -/
def scoreGE (a b : Row) : Prop := b.final_score ≤ a.final_score

instance : DecidableRel scoreGE := fun a b =>
  inferInstanceAs (Decidable (b.final_score ≤ a.final_score))

instance : IsTotal Row scoreGE := ⟨fun a b => le_total b.final_score a.final_score⟩

instance : IsTrans Row scoreGE := ⟨fun _ _ _ h h2 => le_trans h2 h⟩

/-- `g.sort_values("final_score", ascending=False)`: a stable descending
sort — pandas `nargsort` reverses the array, takes a stable ascending
argsort of the reversed array, maps through the reversed positions and
reverses the resulting indexer, so rows with equal keys keep their original
relative order. -/
def sortScoreDesc (g : List Row) : List Row :=
  List.insertionSort scoreGE g

/-- The comparison of the final
`sort_values(["event_date", "final_score"], ascending=[True, False])`:
date ascending, then score descending; multi-key pandas sorts are stable. -/
def dateScoreLE (a b : Row) : Prop :=
  a.event_date < b.event_date ∨
    (a.event_date = b.event_date ∧ b.final_score ≤ a.final_score)

instance : DecidableRel dateScoreLE := fun a b =>
  inferInstanceAs (Decidable (a.event_date < b.event_date ∨
    (a.event_date = b.event_date ∧ b.final_score ≤ a.final_score)))

instance : IsTotal Row dateScoreLE := by
  constructor
  intro a b
  rcases Nat.lt_trichotomy a.event_date b.event_date with h | h | h
  · exact Or.inl (Or.inl h)
  · rcases le_total b.final_score a.final_score with h2 | h2
    · exact Or.inl (Or.inr ⟨h, h2⟩)
    · exact Or.inr (Or.inr ⟨h.symm, h2⟩)
  · exact Or.inr (Or.inl h)

instance : IsTrans Row dateScoreLE := by
  constructor
  intro a b c hab hbc
  rcases hab with h1 | ⟨h1, h1s⟩
  · rcases hbc with h2 | ⟨h2, _⟩
    · exact Or.inl (h1.trans h2)
    · exact Or.inl (h2 ▸ h1)
  · rcases hbc with h2 | ⟨h2, h2s⟩
    · exact Or.inl (h1 ▸ h2)
    · exact Or.inr ⟨h1.trans h2, h2s.trans h1s⟩

/-- `df.groupby("event_date")` on a date-sorted frame: split into the runs of
equal consecutive dates (groups are emitted in ascending date order). -/
def groupByDate : List Row → List (List Row)
  | [] => []
  | r :: rs =>
    match groupByDate rs with
    | [] => [[r]]
    | [] :: gs => [r] :: gs
    | (s :: g) :: gs =>
      if r.event_date = s.event_date then (r :: s :: g) :: gs
      else [r] :: (s :: g) :: gs

/-! ### External scorer (`ml_inference.py`) -/

/-- A loaded scorer session, abstracted as the per-row score it produces
(`session.run` returns one prediction per input row). -/
structure SessionRec where
  score : Row → ℚ

/-- `score_dataframe`: with no session the score series is identically zero;
with a session it is the model's prediction per row. -/
def scoreDataframe (sess : Option SessionRec) (g : List Row) : List ℚ :=
  match sess with
  | none => g.map (fun _ => 0)
  | some s => g.map s.score

inductive MLError where
  | onnxModelError : String → MLError
deriving DecidableEq

/-- `get_onnx_session` on top of `_load_session`: a falsy path yields no
session; a set path whose file is missing raises `ONNXModelError`; otherwise
the session for that path is loaded. -/
def getOnnxSession (filePath : Option String) (fileExists : String → Bool)
    (load : String → SessionRec) : Except MLError (Option SessionRec) :=
  match filePath with
  | none => .ok none
  | some p =>
    if p = "" then .ok none
    else if fileExists p then .ok (some (load p))
    else .error (.onnxModelError p)

/-- The normalized factor record produced by `parse_strategy`. -/
structure FactorSpec where
  name : String
  direction : String
  weight : ℚ
  modelId : Option String
deriving DecidableEq

/-- `any(f.name == "ML_MODEL" and f.weight != 0.0 for f in factors)`. -/
def hasActiveMl (factors : List FactorSpec) : Bool :=
  factors.any (fun f => decide (f.name = "ML_MODEL" ∧ f.weight ≠ 0))

/-- `next((f.weight for f in factors if f.name == "ML_MODEL"), 0.0)`:
the weight of the first ML factor, `0` when there is none. -/
def mlWeight (factors : List FactorSpec) : ℚ :=
  ((factors.find? (fun f => decide (f.name = "ML_MODEL"))).map
    FactorSpec.weight).getD 0

/-- The per-group body of `_apply_ml_and_rank`: when an ML factor with
non-zero weight is active, add `max(ml_weight, 0) * z_ml` to each row's
`final_score` (the `__ml_score` helper column does not feed any later stage
and is not modelled). -/
def applyMlGroup (sqrtF : ℚ → ℚ) (factors : List FactorSpec)
    (sess : Option SessionRec) (g : List Row) : List Row :=
  if hasActiveMl factors then
    let zs := mlZ sqrtF (scoreDataframe sess g)
    (g.zip zs).map
      (fun rz => { rz.1 with
        final_score := rz.1.final_score + max (mlWeight factors) 0 * rz.2 })
  else g

/-- `_apply_ml_and_rank`: per-date group loop, per-group descending score
sort, concatenation, and the final stable sort by (date asc, score desc). -/
def applyMlAndRank (sqrtF : ℚ → ℚ) (factors : List FactorSpec)
    (sess : Option SessionRec) (rows : List Row) : List Row :=
  List.insertionSort dateScoreLE
    (((groupByDate rows).map
      (fun g => sortScoreDesc (applyMlGroup sqrtF factors sess g))).flatten)

/-- Tie compatibility: two rows with equal date and equal `final_score`
appear in ticker-ascending order. -/
def tieOK (a b : Row) : Prop :=
  a.event_date = b.event_date → a.final_score = b.final_score →
    a.ticker ≤ b.ticker

instance (a b : Row) : Decidable (tieOK a b) := by
  unfold tieOK
  infer_instance

/-- The ordering property claimed by the specification: adjacent rows with
equal date and equal `final_score` appear in ticker-ascending order. -/
def tiesTickerAsc (l : List Row) : Prop :=
  l.Chain' tieOK

instance (l : List Row) : Decidable (tiesTickerAsc l) := by
  unfold tiesTickerAsc
  infer_instance

/-- The order in which the data provider hands rows to the pipeline:
date ascending, ties by ticker ascending (the generated query ends in
`ORDER BY event_date ASC, ticker ASC`). -/
def providerLE (a b : Row) : Prop :=
  a.event_date < b.event_date ∨
    (a.event_date = b.event_date ∧ a.ticker ≤ b.ticker)

/-! ### Rebalancing dates and allocation building (`_build_allocations`) -/

/-- Stable ascending sort of a date list. -/
def sortDatesAsc (ds : List ℕ) : List ℕ :=
  List.insertionSort (fun a b : ℕ => a ≤ b) ds

/-- `_determine_rebalancing_dates`: the distinct dates, grouped by calendar
period (`periodOf` abstracts `dt.to_period`, a monotone map on date
ordinals), keeping the maximum date of each period — for an ascending date
list this is the last date of each run of equal periods. -/
def lastOfPeriodRuns (periodOf : ℕ → ℕ) : List ℕ → List ℕ
  | [] => []
  | [d] => [d]
  | d :: e :: rest =>
    if periodOf d = periodOf e then lastOfPeriodRuns periodOf (e :: rest)
    else d :: lastOfPeriodRuns periodOf (e :: rest)

/-- The rebalancing dates of a scored frame. -/
def rebalancingDates (rows : List Row) (periodOf : ℕ → ℕ) : List ℕ :=
  lastOfPeriodRuns periodOf (sortDatesAsc ((rows.map Row.event_date).dedup))

/-- The per-date body of `_build_allocations`: rank the date slice by score
descending, keep the top `topn`, skip empty slices, and weight either
equally or proportionally to the market caps clipped at `0`.  A `NULL`
market cap stays `NaN` through `clip` (`none` here), is skipped by the
`skipna` sum, and produces a `NaN` target weight under cap weighting; when
the clipped cap sum is `≤ 0` the date falls back to equal weighting. -/
def buildAllocationForDate (slice : List Row) (topn : ℕ)
    (weightMethod : String) : Option (List (String × Option ℚ)) :=
  let ranked := (sortScoreDesc slice).take topn
  if ranked.isEmpty then none
  else if weightMethod = "equal" then
    some (ranked.map (fun r => (r.ticker, some (1 / (ranked.length : ℚ)))))
  else
    let s := ((ranked.map (fun r => r.market_cap.map
      (fun c => max c 0))).filterMap id).sum
    if s ≤ 0 then
      some (ranked.map (fun r => (r.ticker, some (1 / (ranked.length : ℚ)))))
    else
      some (ranked.map (fun r =>
        (r.ticker, r.market_cap.map (fun c => max c 0 / s))))

/-- `_build_allocations` without its final emptiness check (the caller model
raises `Rebalancing produced no allocations` on an empty result). -/
def buildAllocations (scored : List Row) (topn : ℕ) (weightMethod : String)
    (periodOf : ℕ → ℕ) : List (ℕ × List (String × Option ℚ)) :=
  (rebalancingDates scored periodOf).filterMap (fun d =>
    (buildAllocationForDate (scored.filter (fun r => r.event_date = d))
      topn weightMethod).map (fun ws => (d, ws)))

/-! ### Price matrix (`_prepare_price_matrix`) -/

/-- The pivot's column set: the distinct tickers of the frame. -/
def colTickers (rows : List Row) : List String :=
  (rows.map Row.ticker).dedup

/-- One pivot cell before forward-filling: `aggfunc="last"` keeps the last
non-`NaN` close price among the rows of one `(date, ticker)` pair. -/
def lastClose (rows : List Row) (d : ℕ) (t : String) : Option ℚ :=
  (rows.filter (fun r => decide (r.event_date = d ∧ r.ticker = t))).foldl
    (fun acc r => match r.close_price with
      | some c => some c
      | none => acc) none

/-- One forward-fill step: take the current date's cell where present,
otherwise carry the previous value of the column. -/
def ffillStep (prev : List (String × Option ℚ)) (cur : String → Option ℚ) :
    List (String × Option ℚ) :=
  prev.map (fun tv => (tv.1, match cur tv.1 with
    | some c => some c
    | none => tv.2))

/-- Forward-fill down the date index. -/
def pivotGo (rows : List Row) (ds : List ℕ)
    (prev : List (String × Option ℚ)) : List (ℕ × List (String × Option ℚ)) :=
  match ds with
  | [] => []
  | d :: rest =>
    let cur := ffillStep prev (lastClose rows d)
    (d, cur) :: pivotGo rows rest cur

/-- `_prepare_price_matrix`: pivot to (date × ticker) last close prices,
forward-fill across gaps, drop dates whose row is entirely `NaN`, and fail
(`none`) when nothing remains. -/
def preparePriceMatrix (rows : List Row) :
    Option (List (ℕ × List (String × Option ℚ))) :=
  let m := pivotGo rows (sortDatesAsc ((rows.map Row.event_date).dedup))
    ((colTickers rows).map (fun t => (t, none)))
  let m := m.filter (fun dv => dv.2.any (fun tv => tv.2.isSome))
  if m.isEmpty then none else some m

/-! ### The T+1 execution-lag mapping (`_simulate_equity_curve_Tplus1`) -/

/-- Distance between date ordinals. -/
def natDist (a b : ℕ) : ℕ := max a b - min a b

/-- `prices.index.get_indexer([d], method="nearest")`: the position of the
index entry closest to `d`; equidistant ties resolve to the later entry. -/
def nearestPos (d : ℕ) : List ℕ → ℕ
  | [] => 0
  | [_] => 0
  | x :: y :: rest =>
    let p := nearestPos d (y :: rest)
    if natDist x d < natDist ((y :: rest).getD p 0) d then 0 else p + 1

/-- The pricing date on which an allocation decided on rebalance date `d`
takes effect: the index entry one past the nearest one, `none` when that
position falls outside the index. -/
def effectDate (idx : List ℕ) (d : ℕ) : Option ℕ :=
  idx.get? (nearestPos d idx + 1)

/-- Python dict assignment on an association list: overwrite an existing key,
append a new one. -/
def upsert {α β : Type} [DecidableEq α] (l : List (α × β)) (t : α) (v : β) :
    List (α × β) :=
  if l.any (fun p => p.1 = t) then
    l.map (fun p => if p.1 = t then (t, v) else p)
  else l ++ [(t, v)]

/-- `price_row.get(t, nan)` / `price_row.reindex(...)` on a matrix row. -/
def lookupPrice (priceRow : List (String × Option ℚ)) (t : String) :
    Option ℚ :=
  ((priceRow.find? (fun p => p.1 = t)).map Prod.snd).getD none

/-- The rebalance body of the daily loop: drop targets whose price on the
effect date is `NaN`; keep the previous holdings when none remains; otherwise
replace the holdings entirely, skipping targets with non-positive price or
weight, investing `capital * weight / price` in each remaining target. -/
def rebalanceStep (capital : Option ℚ) (cur : List (String × Option ℚ))
    (snap : List (String × ℚ)) (priceRow : List (String × Option ℚ)) :
    List (String × Option ℚ) :=
  let valid := snap.filterMap (fun tw =>
    (lookupPrice priceRow tw.1).map (fun p => (tw.1, tw.2, p)))
  if valid.isEmpty then cur
  else valid.foldl (fun acc twp =>
    if twp.2.2 ≤ 0 ∨ twp.2.1 ≤ 0 then acc
    else upsert acc twp.1 (capital.map (fun c => c * twp.2.1 / twp.2.2))) []

/-- The Python comparison `w <= 0.0` on a possibly-`NaN` float: any
comparison with `NaN` is `False`. -/
def pyLeZero : Option ℚ → Bool
  | some wv => decide (wv ≤ 0)
  | none => false

/-- The rebalance body over possibly-`NaN` target weights, as produced by
market-cap weighting when a selected name has a `NULL` market cap:
`float(row["target_weight"])` is then `NaN`, the `weight <= 0.0` guard is
`False` for `NaN`, and the invested share count `capital * weight / price`
is `NaN`.  `rebalanceStep` above is the defined-weight case of this body. -/
def rebalanceStepN (capital : Option ℚ) (cur : List (String × Option ℚ))
    (snap : List (String × Option ℚ)) (priceRow : List (String × Option ℚ)) :
    List (String × Option ℚ) :=
  let valid := snap.filterMap (fun tw =>
    (lookupPrice priceRow tw.1).map (fun p => (tw.1, tw.2, p)))
  if valid.isEmpty then cur
  else valid.foldl (fun acc twp =>
    if twp.2.2 ≤ 0 ∨ pyLeZero twp.2.1 then acc
    else upsert acc twp.1 (match capital, twp.2.1 with
      | some c, some wv => some (c * wv / twp.2.2)
      | _, _ => none)) []

/-- Marking the held positions to one day's prices:
`sum(shares[t] * price_row.get(t, nan))`; any missing price or `NaN` share
count poisons the whole value (`none` = `NaN`). -/
def markValue (shares : List (String × Option ℚ))
    (priceRow : List (String × Option ℚ)) : Option ℚ :=
  shares.foldl (fun acc tq =>
    match acc, tq.2, lookupPrice priceRow tq.1 with
    | some a, some q, some p => some (a + q * p)
    | _, _, _ => none) (some 0)

/-- The daily loop: mark holdings to the day's prices (only when holdings
exist), record the equity point, then apply a lagged allocation targeted at
this day, if any. -/
def simulateGo (tplus1 : List (ℕ × List (String × Option ℚ)))
    (pm : List (ℕ × List (String × Option ℚ))) (capital : Option ℚ)
    (shares : List (String × Option ℚ)) : List (ℕ × Option ℚ) :=
  match pm with
  | [] => []
  | (d, priceRow) :: rest =>
    let capital := if shares.isEmpty then capital else markValue shares priceRow
    let shares :=
      match (tplus1.find? (fun p => p.1 = d)).map Prod.snd with
      | some snap => rebalanceStepN capital shares snap priceRow
      | none => shares
    (d, capital) :: simulateGo tplus1 rest capital shares

/-- `_simulate_equity_curve_Tplus1`: shift every allocation to its effect
date via the nearest-position rule, then run the daily loop from the initial
capital and no holdings. -/
def simulate (pm : List (ℕ × List (String × Option ℚ)))
    (allocs : List (ℕ × List (String × Option ℚ))) (initial : ℚ) :
    List (ℕ × Option ℚ) :=
  let idx := pm.map Prod.fst
  let tplus1 := allocs.foldl (fun acc dsnap =>
    match effectDate idx dsnap.1 with
    | some t => upsert acc t dsnap.2
    | none => acc) []
  simulateGo tplus1 pm (some initial) []

/-! ### Metrics (`_compute_metrics`) -/

structure MetricsRec where
  total_return : Option ℚ
  cagr : Option ℚ
  volatility : ℚ
  sharpe : ℚ
  max_drawdown : ℚ
deriving DecidableEq

/-- The all-zero metrics dict built for degenerate inputs. -/
def zeroMetrics : MetricsRec := ⟨some 0, some 0, 0, 0, 0⟩

/-- `series.pct_change().dropna()`: consecutive percentage changes, dropping
undefined entries (`NaN` operands; a zero previous value, whose float result
would be infinite, is likewise treated as undefined here). -/
def pctChangeDrop : List (Option ℚ) → List ℚ
  | some a :: some b :: rest =>
    if a = 0 then pctChangeDrop (some b :: rest)
    else (b / a - 1) :: pctChangeDrop (some b :: rest)
  | _ :: rest => pctChangeDrop rest
  | [] => []

/-- The drawdown series `value / running-max(value) - 1` over the present
values (pandas `cummax` skips `NaN`). -/
def ddList (runmax : Option ℚ) : List (Option ℚ) → List ℚ
  | [] => []
  | none :: rest => ddList runmax rest
  | some v :: rest =>
    let m := match runmax with
      | some m => max m v
      | none => v
    (v / m - 1) :: ddList (some m) rest

/-- `float(dd.min())` with the all-skipped case reported as `0`. -/
def maxDrawdown (vals : List (Option ℚ)) : ℚ :=
  match ddList none vals with
  | [] => 0
  | d :: ds => ds.foldl min d

/-- `_compute_metrics`, parameterized by the float power (`rpow`) and square
root used by CAGR and volatility. -/
def computeMetrics (rpow : ℚ → ℚ → ℚ) (sqrtF : ℚ → ℚ)
    (curve : List (ℕ × Option ℚ)) (initial : ℚ) : MetricsRec :=
  if curve.length < 2 then zeroMetrics
  else
    let series := List.insertionSort (fun a b : ℕ × Option ℚ => a.1 ≤ b.1) curve
    let vals := series.map Prod.snd
    let rets := pctChangeDrop vals
    let lastV := vals.getLastD none
    let tr := lastV.map (fun v => v / max initial (1 / 10 ^ 9) - 1)
    let days : ℕ :=
      max (((series.getLastD (0, none)).1) - ((series.headD (0, none)).1)) 1
    let years : ℚ := (days : ℚ) * 4 / 1461
    let cagr := if 0 < years then tr.map (fun t => rpow (1 + t) (1 / years) - 1)
      else some 0
    let vol := if rets.isEmpty then 0 else sqrtF (popVar rets) * sqrtF 252
    let mean := if rets.isEmpty then 0 else listMean rets
    let sharpe := if 0 < vol then mean * 252 / vol else 0
    ⟨tr, cagr, vol, sharpe, maxDrawdown vals⟩

/-! ### The `portfolio.top_n` normalization fragment of `parse_strategy`

`top_n = int(port.get("top_n", 30)); if top_n <= 0: raise
StrategyExecutionError(...)`.  Unlike every other coercion in
`parse_strategy`, the `int(...)` call is not wrapped in `try/except`, so its
own exceptions escape as-is. -/

/-- A loosely-typed strategy-definition field value. -/
inductive PyVal where
  | int : Int → PyVal
  | float : ℚ → PyVal
  | str : String → PyVal
  | pynone : PyVal
deriving DecidableEq

/-- The errors that can escape the normalizer: raw Python coercion
exceptions, and the `StrategyExecutionError` validation error. -/
inductive PyError where
  | valueError : String → PyError
  | typeError : String → PyError
  | strategyExecutionError : String → PyError
deriving DecidableEq

/-- Whether an error is the validation error of the normalizer. -/
def PyError.isValidation : PyError → Bool
  | .strategyExecutionError _ => true
  | _ => false

/-- Python `int(q)` on a float: truncation toward zero. -/
def truncQ (q : ℚ) : Int := if 0 ≤ q then ⌊q⌋ else ⌈q⌉

/-- The value of an all-digit character run, `none` when empty or when a
non-digit occurs. -/
def digitsVal : List Char → Option ℕ
  | [] => none
  | [c] => if c.isDigit then some (c.toNat - 48) else none
  | c :: rest =>
    match (if c.isDigit then some (c.toNat - 48) else none), digitsVal rest with
    | some d, some n => some (d * 10 ^ rest.length + n)
    | _, _ => none

/-- Python `int(s)` on a string: surrounding whitespace is ignored, then an
optional sign and a non-empty digit run are required. -/
def pyStrInt (s : String) : Option Int :=
  let cs := ((s.toList.dropWhile (· = ' ')).reverse.dropWhile (· = ' ')).reverse
  match cs with
  | '-' :: rest => (digitsVal rest).map (fun n => -(n : Int))
  | '+' :: rest => (digitsVal rest).map (fun n => (n : Int))
  | rest => (digitsVal rest).map (fun n => (n : Int))

/-- The Python `int(...)` builtin on the field values: ints pass through,
floats truncate, numeric strings parse, other strings raise `ValueError`,
`None` raises `TypeError`. -/
def pyInt : PyVal → Except PyError Int
  | .int n => .ok n
  | .float q => .ok (truncQ q)
  | .str s =>
    match pyStrInt s with
    | some n => .ok n
    | none => .error (.valueError ("invalid literal for int: " ++ s))
  | .pynone => .error (.typeError "int() argument cannot be NoneType")

/-- The `top_n` fragment of `parse_strategy`: default `30` when the key is
absent, bare `int(...)` coercion, then the positivity validation. -/
def parseTopN (v : Option PyVal) : Except PyError Int :=
  match pyInt (v.getD (.int 30)) with
  | .error e => .error e
  | .ok n =>
    if n ≤ 0 then .error (.strategyExecutionError "portfolio.top_n must be positive")
    else .ok n

/-! ### `execute_strategy` -/

/-- The normalized strategy produced by `parse_strategy`, restricted to the
fields the execution pipeline reads. -/
structure StrategySpecL where
  factors : List FactorSpec
  topN : ℕ
  weightMethod : String

/-- The stored ML model row looked up with `db.get(MLModel, model_id)`. -/
structure MLModelRec where
  filePath : String

/-- The external world of one execution: the parse outcome, the model
lookup, the scorer file system and loader, the data provider's result, and
the numeric primitives. -/
structure Env where
  parseOutcome : Except String StrategySpecL
  modelLookup : Option MLModelRec
  fileExists : String → Bool
  loadSession : String → SessionRec
  fetchRows : List Row
  sqrtF : ℚ → ℚ
  rpow : ℚ → ℚ → ℚ
  periodOf : ℕ → ℕ

/-- The externally observable stages of one execution, in the order the
pipeline enters them. -/
inductive Effect where
  | parse
  | mlResolve
  | query
  | persist
deriving DecidableEq

/-- A persisted `BacktestResult` row. -/
structure PersistRecord where
  startD : ℕ
  endD : ℕ
  initialCapital : ℚ
  equityCurve : List (ℕ × Option ℚ)
  metrics : MetricsRec

/-- The outcome of one call to `execute_strategy`: the returned value or the
raised `StrategyExecutionError` message, the stages entered, and the records
persisted. -/
structure ExecOutcome where
  result : Except String (List (ℕ × Option ℚ) × MetricsRec)
  effects : List Effect
  persisted : List PersistRecord

/-- The pipeline from the data fetch on (`execute_strategy` after the ML
session is resolved): empty universes persist an empty curve with all-zero
metrics and return; otherwise rank, allocate, simulate, compute metrics and
persist.  (The `backtesting`-library replay adapter contributes nothing to
the returned or persisted values and is not modelled.) -/
def execWithSession (env : Env) (s e : ℕ) (cap : ℚ) (spec : StrategySpecL)
    (sess : Option SessionRec) (effs : List Effect) : ExecOutcome :=
  let rows := env.fetchRows
  let effs := effs ++ [Effect.query]
  if rows.isEmpty then
    ⟨.ok ([], zeroMetrics), effs ++ [Effect.persist],
      [⟨s, e, cap, [], zeroMetrics⟩]⟩
  else
    let ranked := applyMlAndRank env.sqrtF spec.factors sess rows
    let allocs := buildAllocations ranked spec.topN spec.weightMethod env.periodOf
    if allocs.isEmpty then
      ⟨.error "Rebalancing produced no allocations", effs, []⟩
    else
      match preparePriceMatrix rows with
      | none => ⟨.error "No price data available to simulate equity curve", effs, []⟩
      | some pm =>
        let curve := simulate pm allocs cap
        let metrics := computeMetrics env.rpow env.sqrtF curve cap
        ⟨.ok (curve, metrics), effs ++ [Effect.persist],
          [⟨s, e, cap, curve, metrics⟩]⟩

/-- `execute_strategy`: the date and capital guards come first, then the
strategy is parsed, then an active ML factor's model is resolved and its
scorer session loaded, then the scored universe is fetched and the pipeline
runs. -/
def executeStrategy (env : Env) (s e : ℕ) (cap : ℚ) : ExecOutcome :=
  if e ≤ s then ⟨.error "start_date must be before end_date", [], []⟩
  else if cap ≤ 0 then ⟨.error "initial_capital must be positive", [], []⟩
  else
    match env.parseOutcome with
    | .error msg => ⟨.error msg, [Effect.parse], []⟩
    | .ok spec =>
      match spec.factors.filter
          (fun f => decide (f.name = "ML_MODEL" ∧ f.modelId.isSome)) with
      | [] => execWithSession env s e cap spec none [Effect.parse]
      | f :: _ =>
        if f.weight ≠ 0 then
          match env.modelLookup with
          | none =>
            ⟨.error "Requested ML model not found",
              [Effect.parse, Effect.mlResolve], []⟩
          | some m =>
            match getOnnxSession (some m.filePath) env.fileExists
                env.loadSession with
            | .error (.onnxModelError p) =>
              ⟨.error ("ONNX model file not found: " ++ p),
                [Effect.parse, Effect.mlResolve], []⟩
            | .ok sess =>
              execWithSession env s e cap spec sess
                [Effect.parse, Effect.mlResolve]
        else execWithSession env s e cap spec none [Effect.parse]

/-! ### Derived predicates and concrete fixtures -/

/-- `t` is the first pricing date of `idx` strictly after `d`. -/
def isFirstAfter (idx : List ℕ) (d t : ℕ) : Prop :=
  t ∈ idx ∧ d < t ∧ ∀ u ∈ idx, d < u → t ≤ u

instance (idx : List ℕ) (d t : ℕ) : Decidable (isFirstAfter idx d t) := by
  unfold isFirstAfter
  infer_instance

/-- The targets of an allocation snapshot that survive the rebalance body:
price present on the effect date, positive price, positive weight. -/
def keptTargets (snap : List (String × ℚ))
    (priceRow : List (String × Option ℚ)) : List (String × ℚ) :=
  snap.filter (fun tw =>
    match lookupPrice priceRow tw.1 with
    | some p => decide (0 < p ∧ 0 < tw.2)
    | none => false)

/-- Fixture: two same-date rows with tied (zero) scores, tickers in
provider (ascending) order. -/
def rowA : Row := ⟨0, "A", none, some 0, 0⟩

/-- Fixture: see `rowA`. -/
def rowB : Row := ⟨0, "B", none, some 0, 0⟩

/-- Fixture: a top-scored row whose market cap is `NULL`. -/
def rowNullCap : Row := ⟨0, "A", none, none, 1⟩

/-- Fixture: a second row with a defined positive market cap. -/
def rowCap : Row := ⟨0, "B", none, some 1, 0⟩

/-- Fixture: a single zero-weight rule-based factor (spec scenario B). -/
def facsNoMl : List FactorSpec := [⟨"PCTCHANGE", "desc", 0, none⟩]

/-- Fixture environment whose data provider returns zero rows. -/
def emptyFetchEnv : Env :=
  ⟨.ok ⟨facsNoMl, 30, "equal"⟩, none, fun _ => false, fun _ => ⟨fun _ => 0⟩,
    [], id, fun a _ => a, id⟩

/-- Fixture environment with an active ML factor whose stored model file is
missing from disk. -/
def missingModelEnv : Env :=
  ⟨.ok ⟨[⟨"ML_MODEL", "desc", 1, some "m"⟩], 30, "equal"⟩,
    some ⟨"model.onnx"⟩, fun _ => false, fun _ => ⟨fun _ => 0⟩,
    [rowA], id, fun a _ => a, id⟩

/-- Fixture environment for exercising the input guards. -/
def guardEnv : Env :=
  ⟨.ok ⟨facsNoMl, 30, "equal"⟩, none, fun _ => false, fun _ => ⟨fun _ => 0⟩,
    [rowA], id, fun a _ => a, id⟩

/-! ## Helper lemmas -/

theorem listSumConst {l : List ℚ} {c : ℚ} (h : ∀ x ∈ l, x = c) :
    l.sum = l.length * c := by
  induction l with
  | nil => simp
  | cons x t ih =>
    simp only [List.sum_cons, List.length_cons, h x (by simp),
      ih (fun y hy => h y (by simp [hy]))]
    push_cast
    ring

theorem listMeanConst {l : List ℚ} {c : ℚ} (hne : l ≠ []) (h : ∀ x ∈ l, x = c) :
    listMean l = c := by
  have hlen : (l.length : ℚ) ≠ 0 := by
    simpa using (List.length_pos.mpr hne).ne'
  rw [listMean, listSumConst h, mul_comm, mul_div_assoc, div_self hlen, mul_one]

theorem popVarConst {l : List ℚ} {c : ℚ} (h : ∀ x ∈ l, x = c) : popVar l = 0 := by
  rcases eq_or_ne l [] with rfl | hne
  · simp [popVar]
  · rw [popVar]
    have hz : ∀ y ∈ l.map (fun x => (x - listMean l) ^ 2), y = 0 := by
      intro y hy
      rcases List.mem_map.mp hy with ⟨x, hx, rfl⟩
      rw [h x hx, listMeanConst hne h, sub_self]
      ring
    rw [listSumConst hz, mul_zero, zero_div]

theorem sampleVarTied {xs : List (Option ℚ)} {c : ℚ}
    (h : ∀ v ∈ xs.filterMap id, v = c) :
    sampleVar xs = none ∨ sampleVar xs = some 0 := by
  rw [sampleVar]
  set v := xs.filterMap id with hv
  by_cases hlen : v.length < 2
  · simp [hlen]
  · right
    have hne : v ≠ [] := by
      intro h0
      rw [h0] at hlen
      simp at hlen
    have hlq : (v.length : ℚ) ≠ 0 := by
      simpa using (List.length_pos.mpr hne).ne'
    have hmean : v.sum / v.length = c := by
      rw [listSumConst h, mul_comm, mul_div_assoc, div_self hlq, mul_one]
    have hz : ∀ y ∈ v.map (fun x => (x - v.sum / v.length) ^ 2), y = 0 := by
      intro y hy
      rcases List.mem_map.mp hy with ⟨x, hx, rfl⟩
      rw [h x hx, hmean, sub_self]
      ring
    simp only [hlen, if_false]
    rw [listSumConst hz, mul_zero, zero_div]

/-! ## C1 -/

/-- C1 counterexample: on a zero-variance date (two rows both `1`), the raw
standardized value produced by the generated SQL is `NULL`, not `0`: the
`NULLIF` guard nullifies the zero sample standard deviation, and the division
by `NULL` yields `NULL`. -/
theorem c1_counterexample :
    zExpr id [some 1, some 1] (some 1) = none ∧
    zExpr id [some 1, some 1] (some 1) ≠ some 0 := by
  constructor
  · simp [zExpr, sqlAvg, sqlSub, sqlDiv, stddevSamp, sampleVar, nullif0]
  · simp [zExpr, sqlAvg, sqlSub, sqlDiv, stddevSamp, sampleVar, nullif0]

/-- C1 (amended): on a zero-variance date, the raw-column standardized value
is `NULL` for every row (never `0`); standardization never divides by zero —
the `NULLIF`-guarded divisor is never a zero value; the external-model
standardized score is exactly `0` for every row on a zero-variance date. -/
theorem c1_zero_variance (sqrtF : ℚ → ℚ) (h0 : sqrtF 0 = 0)
    (xs : List (Option ℚ)) (c : ℚ) (htied : ∀ v ∈ xs.filterMap id, v = c) :
    (∀ x ∈ xs, zExpr sqrtF xs x = none) ∧
    (∀ ys : List (Option ℚ), nullif0 (stddevSamp sqrtF ys) ≠ some 0) ∧
    (∀ scores : List ℚ, (∀ s ∈ scores, s = c) → ∀ z ∈ mlZ sqrtF scores, z = 0) := by
  refine ⟨?_, ?_, ?_⟩
  · intro x _
    have hden : nullif0 (stddevSamp sqrtF xs) = none := by
      rcases sampleVarTied htied with h | h <;>
        simp [stddevSamp, h, nullif0, h0]
    rw [zExpr, hden]
    cases sqlSub x (sqlAvg xs) <;> rfl
  · intro ys
    cases hsv : stddevSamp sqrtF ys with
    | none => simp [nullif0]
    | some v => by_cases hv : v = 0 <;> simp [nullif0, hv]
  · intro scores hs z hz
    have hvar : popVar scores = 0 := popVarConst hs
    rw [mlZ] at hz
    simp only [hvar, h0] at hz
    rw [if_neg (by norm_num)] at hz
    rcases List.mem_map.mp hz with ⟨_, _, rfl⟩
    rfl

/-- C1 witness: the amended statement instantiated on a concrete tied date
slice and a concrete tied score series. -/
theorem c1_zero_variance_witness :
    zExpr id [some (1 : ℚ), some 1] (some 1) = none ∧
    nullif0 (stddevSamp id [some (3 : ℚ)]) ≠ some 0 ∧
    ∀ z ∈ mlZ id [(1 : ℚ), 1], z = 0 := by
  obtain ⟨h1, h2, h3⟩ :=
    c1_zero_variance id rfl [some 1, some 1] 1 (by intro v hv; simpa using hv)
  refine ⟨h1 (some 1) (by simp), h2 [some 3], h3 [1, 1] ?_⟩
  intro s hs
  simpa using hs

/-! ## C3 -/

theorem sqlAdd_some_zero (x : Option ℚ) : sqlAdd (some 0) x = x := by
  cases x <;> simp [sqlAdd]

theorem sqlAdd_none_right (x : Option ℚ) : sqlAdd x none = none := by
  cases x <;> rfl

theorem sqlAdd_assoc (a b c : Option ℚ) :
    sqlAdd a (sqlAdd b c) = sqlAdd (sqlAdd a b) c := by
  cases a <;> cases b <;> cases c <;> simp [sqlAdd, add_assoc]

theorem sqlSum_cons (a : Option ℚ) (l : List (Option ℚ)) :
    sqlSum (a :: l) = sqlAdd a (sqlSum l) := rfl

theorem sqlSum_append (l1 l2 : List (Option ℚ)) :
    sqlSum (l1 ++ l2) = sqlAdd (sqlSum l1) (sqlSum l2) := by
  induction l1 with
  | nil => rw [List.nil_append, show sqlSum [] = some 0 from rfl, sqlAdd_some_zero]
  | cons x t ih => rw [List.cons_append, sqlSum_cons, ih, sqlSum_cons, sqlAdd_assoc]

theorem finalScoreRow_append (l1 l2 : List FactorTerm) :
    finalScoreRow (l1 ++ l2)
      = sqlAdd (finalScoreRow l1) (finalScoreRow l2) := by
  rw [finalScoreRow, List.filter_append, List.map_append, sqlSum_append,
    ← finalScoreRow, ← finalScoreRow]

theorem finalScoreRow_cons (t : FactorTerm) (post : List FactorTerm) :
    finalScoreRow (t :: post)
      = sqlAdd (if t.weight = 0 then some 0
          else sqlMul (some (max t.weight 0)) (signedZOpt t.direction t.z))
        (finalScoreRow post) := by
  rw [finalScoreRow, List.filter_cons]
  by_cases hw : t.weight = 0
  · rw [if_neg (by simpa using hw), if_pos hw, ← finalScoreRow, sqlAdd_some_zero]
  · rw [if_pos (by simpa using hw), if_neg hw, List.map_cons, sqlSum_cons,
      ← finalScoreRow]

/-- C3 counterexample: a factor with negative weight stays in the query as a
zero-clamped term, so on a row where its standardized value is `NULL` the
whole `final_score` is `NULL` — not the `0` score obtained with weight `0`,
whose factor is removed from the query entirely; and with a defined negative
standardized value, raising the clamped weight from `1` to `2` strictly
decreases `final_score`, refuting the monotonicity part. -/
theorem c3_counterexample :
    finalScoreRow [⟨-1, "desc", none⟩] = none ∧
    finalScoreRow [⟨0, "desc", none⟩] = some 0 ∧
    finalScoreRow [⟨2, "desc", some (-1)⟩] = some (-2) ∧
    finalScoreRow [⟨1, "desc", some (-1)⟩] = some (-1) ∧
    ((-2 : ℚ) < -1 ∧ max (1 : ℚ) 0 ≤ max (2 : ℚ) 0) := by
  refine ⟨?_, ?_, ?_, ?_, by norm_num⟩ <;>
    simp [finalScoreRow, sqlSum, sqlAdd, sqlMul, signedZOpt, signedZ, sqlSum]

/-- C3 (amended): a factor with negative weight is clamped to a zero
coefficient, so when its standardized value for the row is defined it
contributes exactly zero (the score equals the one computed with weight
`0`, never a negative contribution or sign flip); but its zero-clamped term
remains in the query, so a `NULL` standardized value makes the whole
`final_score` `NULL`, unlike weight exactly `0` whose factor is removed;
when the scores are defined, changing one factor's weight changes
`final_score` by exactly `(max w2 0 - max w 0) * signedZ`, so it is
monotonically non-decreasing in the clamped weight whenever that factor's
signed standardized value is non-negative. -/
theorem c3_weight_clamping (pre post : List FactorTerm) (dir : String)
    (zv : ℚ) (w w2 : ℚ) :
    (w ≤ 0 →
      finalScoreRow (pre ++ ⟨w, dir, some zv⟩ :: post)
        = finalScoreRow (pre ++ ⟨0, dir, some zv⟩ :: post)) ∧
    (w ≠ 0 →
      finalScoreRow (pre ++ ⟨w, dir, none⟩ :: post) = none) ∧
    (∀ s, finalScoreRow (pre ++ ⟨w, dir, some zv⟩ :: post) = some s →
      finalScoreRow (pre ++ ⟨w2, dir, some zv⟩ :: post)
        = some (s + (max w2 0 - max w 0) * signedZ dir zv)) ∧
    (∀ s s2, finalScoreRow (pre ++ ⟨w, dir, some zv⟩ :: post) = some s →
      finalScoreRow (pre ++ ⟨w2, dir, some zv⟩ :: post) = some s2 →
      max w 0 ≤ max w2 0 → 0 ≤ signedZ dir zv → s ≤ s2) := by
  have hmid : ∀ u : ℚ,
      (if u = 0 then (some 0 : Option ℚ)
        else sqlMul (some (max u 0)) (signedZOpt dir (some zv)))
      = some (max u 0 * signedZ dir zv) := by
    intro u
    by_cases hu : u = 0
    · subst hu
      simp [signedZOpt, sqlMul]
    · rw [if_neg hu]
      simp [signedZOpt, sqlMul]
  have hdecomp : ∀ u : ℚ,
      finalScoreRow (pre ++ (⟨u, dir, some zv⟩ : FactorTerm) :: post)
        = sqlAdd (finalScoreRow pre)
            (sqlAdd (some (max u 0 * signedZ dir zv)) (finalScoreRow post)) := by
    intro u
    rw [finalScoreRow_append, finalScoreRow_cons, ← hmid u]
  have hshift : ∀ s, finalScoreRow (pre ++ ⟨w, dir, some zv⟩ :: post) = some s →
      finalScoreRow (pre ++ ⟨w2, dir, some zv⟩ :: post)
        = some (s + (max w2 0 - max w 0) * signedZ dir zv) := by
    intro s hs
    rw [hdecomp w] at hs
    rw [hdecomp w2]
    cases hpre : finalScoreRow pre with
    | none => rw [hpre] at hs; exact absurd hs (by simp [sqlAdd])
    | some p =>
      cases hpost : finalScoreRow post with
      | none => rw [hpre, hpost] at hs; exact absurd hs (by simp [sqlAdd])
      | some q =>
        rw [hpre, hpost] at hs
        simp only [sqlAdd, Option.some.injEq] at hs ⊢
        linarith [hs]
  refine ⟨?_, ?_, hshift, ?_⟩
  · intro hw
    rw [hdecomp w, hdecomp 0, max_eq_right hw, max_self]
  · intro hw
    rw [finalScoreRow_append, finalScoreRow_cons, if_neg hw]
    rw [show signedZOpt dir ((⟨w, dir, none⟩ : FactorTerm).z) = none from rfl]
    rw [show sqlMul (some (max w 0)) none = none from rfl]
    rw [show sqlAdd (none : Option ℚ) (finalScoreRow post) = none from rfl,
      sqlAdd_none_right]
  · intro s s2 hs hs2 hmax hz
    rw [hshift s hs, Option.some.injEq] at hs2
    have : 0 ≤ (max w2 0 - max w 0) * signedZ dir zv :=
      mul_nonneg (sub_nonneg.mpr hmax) hz
    linarith [hs2]

/-- C3 witness: the amended statement instantiated at concrete factor
lists. -/
theorem c3_weight_clamping_witness :
    finalScoreRow [⟨-1, "desc", some (5 : ℚ)⟩]
      = finalScoreRow [⟨0, "desc", some (5 : ℚ)⟩] ∧
    finalScoreRow [⟨-1, "desc", (none : Option ℚ)⟩] = none ∧
    (5 : ℚ) ≤ 10 := by
  obtain ⟨h1, h2, _, _⟩ := c3_weight_clamping [] [] "desc" 5 (-1) 0
  obtain ⟨_, _, _, h4⟩ := c3_weight_clamping [] [] "desc" 5 1 2
  refine ⟨h1 (by norm_num), h2 (by norm_num), h4 5 10 ?_ ?_ (by norm_num) ?_⟩
  · simp [finalScoreRow, sqlSum, sqlAdd, sqlMul, signedZOpt, signedZ] <;> norm_num
  · simp [finalScoreRow, sqlSum, sqlAdd, sqlMul, signedZOpt, signedZ] <;> norm_num
  · simp [signedZ]

theorem zipZeroMap (w : ℚ) : ∀ g : List Row,
    (g.zip (g.map (fun _ => (0 : ℚ)))).map
      (fun rz => { rz.1 with final_score := rz.1.final_score + w * rz.2 }) = g
  | [] => rfl
  | r :: t => by
    simp only [List.map_cons, List.zip_cons_cons]
    rw [mul_zero, add_zero]
    exact congrArg (List.cons _) (zipZeroMap w t)

/-! ## C8 -/

/-- C8: `portfolio.top_n` defaults to `30` when absent and a non-positive
integer fails with the validation error, but the bare `int(...)` coercion is
not wrapped like every other coercion in `parse_strategy`: a non-numeric
string escapes as a raw `ValueError` (not a validation error), and a
fractional value such as `2.7` is silently truncated to `2` instead of being
rejected. -/
theorem c8_top_n_coercion :
    parseTopN none = .ok 30 ∧
    parseTopN (some (.str "abc"))
      = .error (.valueError ("invalid literal for int: " ++ "abc")) ∧
    (PyError.valueError ("invalid literal for int: " ++ "abc")).isValidation
      = false ∧
    parseTopN (some (.int 0))
      = .error (.strategyExecutionError "portfolio.top_n must be positive") ∧
    parseTopN (some (.float (27 / 10))) = .ok 2 := by
  refine ⟨rfl, rfl, rfl, rfl, ?_⟩
  norm_num [parseTopN, pyInt, truncQ]

/-! ## C9 -/

/-- C9: when `start_date ≥ end_date` or `initial_capital ≤ 0`, the execution
raises a `StrategyExecutionError` before any stage is entered — the strategy
is not parsed, no external query is issued, and nothing is persisted. -/
theorem c9_input_guards (env : Env) (s e : ℕ) (cap : ℚ)
    (h : e ≤ s ∨ cap ≤ 0) :
    (∃ msg, (executeStrategy env s e cap).result = .error msg) ∧
    (executeStrategy env s e cap).effects = [] ∧
    (executeStrategy env s e cap).persisted = [] := by
  by_cases hse : e ≤ s
  · rw [executeStrategy, if_pos hse]
    exact ⟨⟨_, rfl⟩, rfl, rfl⟩
  · have hcap : cap ≤ 0 := h.resolve_left hse
    rw [executeStrategy, if_neg hse, if_pos hcap]
    exact ⟨⟨_, rfl⟩, rfl, rfl⟩

/-- C9 witness: the guard theorem instantiated on a reversed date range. -/
theorem c9_input_guards_witness :
    (∃ msg, (executeStrategy guardEnv 5 3 100).result = .error msg) ∧
    (executeStrategy guardEnv 5 3 100).effects = [] ∧
    (executeStrategy guardEnv 5 3 100).persisted = [] :=
  c9_input_guards guardEnv 5 3 100 (Or.inl (by norm_num))

/-! ## C2 -/

/-- C2 counterexample: with a provider returning zero rows, the execution
does not raise — it returns an empty curve with all-zero metrics and
persists a backtest record containing them. -/
theorem c2_counterexample :
    (executeStrategy emptyFetchEnv 0 5 100).result = .ok ([], zeroMetrics) ∧
    (executeStrategy emptyFetchEnv 0 5 100).persisted
      = [⟨0, 5, 100, [], zeroMetrics⟩] ∧
    (executeStrategy emptyFetchEnv 0 5 100).persisted ≠ [] :=
  ⟨rfl, rfl, fun h => List.cons_ne_nil _ _ h⟩

/-- C2 (amended): when the data provider returns zero rows for the requested
horizon, the execution does not raise a domain error: it logs a warning,
returns an empty equity curve with all-zero metrics, and persists exactly
one backtest record carrying that empty curve and those zero metrics. -/
theorem c2_empty_universe (env : Env) (s e : ℕ) (cap : ℚ)
    (spec : StrategySpecL) (hse : s < e) (hcap : 0 < cap)
    (hparse : env.parseOutcome = .ok spec)
    (hnoml : spec.factors.filter
      (fun f => decide (f.name = "ML_MODEL" ∧ f.modelId.isSome)) = [])
    (hempty : env.fetchRows = []) :
    (executeStrategy env s e cap).result = .ok ([], zeroMetrics) ∧
    (executeStrategy env s e cap).persisted = [⟨s, e, cap, [], zeroMetrics⟩] ∧
    (executeStrategy env s e cap).effects
      = [Effect.parse, Effect.query, Effect.persist] := by
  rw [executeStrategy, if_neg (not_le.mpr hse), if_neg (not_le.mpr hcap),
    hparse]
  simp only [hnoml]
  rw [execWithSession, hempty]
  exact ⟨rfl, rfl, rfl⟩

/-- C2 witness: the amended statement instantiated on a concrete empty-fetch
environment. -/
theorem c2_empty_universe_witness :
    (executeStrategy emptyFetchEnv 2 7 50).result = .ok ([], zeroMetrics) ∧
    (executeStrategy emptyFetchEnv 2 7 50).persisted
      = [⟨2, 7, 50, [], zeroMetrics⟩] ∧
    (executeStrategy emptyFetchEnv 2 7 50).effects
      = [Effect.parse, Effect.query, Effect.persist] :=
  c2_empty_universe emptyFetchEnv 2 7 50 ⟨facsNoMl, 30, "equal"⟩
    (by norm_num) (by norm_num) rfl rfl rfl

/-! ## C7 -/

/-- C7 counterexample: with an active ML factor whose stored model file is
missing, `_load_session` raises `ONNXModelError` and the whole execution
fails (nothing persisted) instead of degrading to a zero score
contribution. -/
theorem c7_counterexample :
    (executeStrategy missingModelEnv 0 5 100).result
      = .error ("ONNX model file not found: " ++ "model.onnx") ∧
    (executeStrategy missingModelEnv 0 5 100).persisted = [] :=
  ⟨rfl, rfl⟩

/-- C7 (amended): when no scorer session is configured (a falsy model file
path), `get_onnx_session` returns no session, `score_dataframe` yields zero
for every row, and the per-group scoring step leaves every row (and its
`final_score`) unchanged, so the pipeline proceeds on the rule-based
factors; but when a model file path is configured and the file is missing,
session loading raises `ONNXModelError` and the execution fails. -/
theorem c7_scorer_unavailable (fe : String → Bool) (load : String → SessionRec)
    (sqrtF : ℚ → ℚ) (h0 : sqrtF 0 = 0) (factors : List FactorSpec)
    (g : List Row) (p : String) :
    getOnnxSession none fe load = .ok none ∧
    getOnnxSession (some "") fe load = .ok none ∧
    scoreDataframe none g = g.map (fun _ => 0) ∧
    applyMlGroup sqrtF factors none g = g ∧
    (p ≠ "" → fe p = false →
      getOnnxSession (some p) fe load = .error (.onnxModelError p)) := by
  refine ⟨rfl, rfl, rfl, ?_, ?_⟩
  · rw [applyMlGroup]
    by_cases hml : hasActiveMl factors
    · rw [if_pos hml]
      have hz : mlZ sqrtF (scoreDataframe none g) = g.map (fun _ => 0) := by
        rw [mlZ, scoreDataframe]
        have hvar : popVar (g.map (fun _ => (0 : ℚ))) = 0 :=
          popVarConst (by intro x hx; rcases List.mem_map.mp hx with ⟨_, _, rfl⟩; rfl)
        simp only [hvar, h0]
        rw [if_neg (by norm_num), List.map_map]
        rfl
      rw [hz]
      exact zipZeroMap _ g
    · exact if_neg hml
  · intro hp hfe
    rw [getOnnxSession, if_neg hp, hfe]
    rfl

/-- C7 witness: the amended statement instantiated on a concrete group and a
concrete missing file. -/
theorem c7_scorer_unavailable_witness :
    applyMlGroup id [⟨"ML_MODEL", "desc", 1, some "m"⟩] none [rowA] = [rowA] ∧
    getOnnxSession (some "x") (fun _ => false) (fun _ => ⟨fun _ => 0⟩)
      = .error (.onnxModelError "x") := by
  obtain ⟨_, _, _, h4, h5⟩ :=
    c7_scorer_unavailable (fun _ => false) (fun _ => ⟨fun _ => 0⟩) id rfl
      [⟨"ML_MODEL", "desc", 1, some "m"⟩] [rowA] "x"
  exact ⟨h4, h5 (by simp) rfl⟩

/-! ## C6 -/

theorem sqlSum_map_some (l : List ℚ) : sqlSum (l.map some) = some l.sum := by
  induction l with
  | nil => rfl
  | cons x t ih => rw [List.map_cons, sqlSum_cons, ih, List.sum_cons]; rfl

theorem sqlSum_none_mem {l : List (Option ℚ)} (h : none ∈ l) :
    sqlSum l = none := by
  induction l with
  | nil => simp at h
  | cons x t ih =>
    rw [sqlSum_cons]
    rcases List.mem_cons.mp h with rfl | h
    · rfl
    · rw [ih h, sqlAdd_none_right]

theorem equalWeightsSum (l : List Row) (hne : l ≠ []) :
    sqlSum ((l.map (fun r => (r.ticker, some (1 / (l.length : ℚ))))).map
      Prod.snd) = some 1 := by
  have hlen : (l.length : ℚ) ≠ 0 := by
    simpa using (List.length_pos.mpr hne).ne'
  rw [List.map_map]
  have h1 : ((fun p : String × Option ℚ => p.2) ∘
      fun r : Row => (r.ticker, some (1 / (l.length : ℚ))))
      = (fun _ : Row => some (1 / (l.length : ℚ))) := rfl
  rw [h1,
    show (l.map (fun _ : Row => some (1 / (l.length : ℚ))))
      = (l.map (fun _ : Row => 1 / (l.length : ℚ))).map some by rw [List.map_map]; rfl,
    sqlSum_map_some,
    listSumConst (fun x hx => by rcases List.mem_map.mp hx with ⟨_, _, rfl⟩; rfl)]
  rw [List.length_map, mul_one_div, div_self hlen]

theorem capWeightsSum (s : ℚ) : ∀ ranked : List Row,
    (∀ r ∈ ranked, r.market_cap ≠ none) →
    sqlSum (ranked.map (fun r => r.market_cap.map (fun c => max c 0 / s)))
      = some ((((ranked.map (fun r => r.market_cap.map
          (fun c => max c 0))).filterMap id).sum) / s)
  | [], _ => by simp [sqlSum, zero_div]
  | r :: rest, h => by
    cases hc : r.market_cap with
    | none => exact absurd hc (h r (by simp))
    | some c =>
      rw [List.map_cons, hc, Option.map_some', sqlSum_cons,
        capWeightsSum s rest (fun r2 h2 => h r2 (by simp [h2])),
        List.map_cons, hc, Option.map_some', List.filterMap_cons]
      simp only [id, List.sum_cons, sqlAdd, Option.some.injEq]
      rw [add_div]

theorem allocationForDate_invariants {slice : List Row} {topn : ℕ}
    {wm : String} {ws : List (String × Option ℚ)}
    (h : buildAllocationForDate slice topn wm = some ws) :
    ws.length ≤ topn ∧
    (wm = "equal" → sqlSum (ws.map Prod.snd) = some 1) ∧
    (wm ≠ "equal" →
      ((((sortScoreDesc slice).take topn).map (fun r => r.market_cap.map
        (fun c => max c 0))).filterMap id).sum ≤ 0 →
      ws = ((sortScoreDesc slice).take topn).map (fun r => (r.ticker,
        some (1 / ((((sortScoreDesc slice).take topn).length : ℚ))))) ∧
      sqlSum (ws.map Prod.snd) = some 1) ∧
    (wm ≠ "equal" →
      0 < ((((sortScoreDesc slice).take topn).map (fun r => r.market_cap.map
        (fun c => max c 0))).filterMap id).sum →
      ((∀ r ∈ (sortScoreDesc slice).take topn, r.market_cap ≠ none) →
        sqlSum (ws.map Prod.snd) = some 1) ∧
      (∀ r ∈ (sortScoreDesc slice).take topn, r.market_cap = none →
        (r.ticker, (none : Option ℚ)) ∈ ws ∧
        sqlSum (ws.map Prod.snd) = none)) := by
  rw [buildAllocationForDate] at h
  set ranked := (sortScoreDesc slice).take topn with hranked
  by_cases hempty : ranked.isEmpty
  · rw [if_pos hempty] at h
    exact absurd h (by simp)
  · have hne : ranked ≠ [] := by
      intro h0
      rw [h0] at hempty
      exact hempty rfl
    have hlenle : ranked.length ≤ topn := by
      rw [hranked, List.length_take]
      exact min_le_left _ _
    rw [if_neg hempty] at h
    by_cases heq : wm = "equal"
    · rw [if_pos heq] at h
      obtain rfl : _ = ws := Option.some.inj h
      refine ⟨by simpa using hlenle, fun _ => equalWeightsSum ranked hne,
        fun hwm _ => absurd heq hwm, fun hwm _ => absurd heq hwm⟩
    · rw [if_neg heq] at h
      by_cases hs : ((ranked.map (fun r => r.market_cap.map
          (fun c => max c 0))).filterMap id).sum ≤ 0
      · rw [if_pos hs] at h
        obtain rfl : _ = ws := Option.some.inj h
        exact ⟨by simpa using hlenle,
          fun hwm => absurd hwm heq,
          fun _ _ => ⟨rfl, equalWeightsSum ranked hne⟩,
          fun _ hpos => absurd hpos (not_lt.mpr hs)⟩
      · rw [if_neg hs] at h
        obtain rfl : _ = ws := Option.some.inj h
        push_neg at hs
        refine ⟨by simpa using hlenle,
          fun hwm => absurd hwm heq,
          fun _ hle => absurd hle (not_le.mpr hs),
          fun _ _ => ⟨?_, ?_⟩⟩
        · intro hall
          rw [List.map_map]
          have h1 : ((fun p : String × Option ℚ => p.2) ∘
              fun r : Row => (r.ticker, r.market_cap.map (fun c => max c 0 /
                ((ranked.map (fun r => r.market_cap.map
                  (fun c => max c 0))).filterMap id).sum)))
              = fun r : Row => r.market_cap.map (fun c => max c 0 /
                ((ranked.map (fun r => r.market_cap.map
                  (fun c => max c 0))).filterMap id).sum) := rfl
          rw [h1, capWeightsSum _ ranked hall, div_self (ne_of_gt hs)]
        · intro r hr hnone
          constructor
          · exact List.mem_map.mpr ⟨r, hr, by rw [hnone]; rfl⟩
          · apply sqlSum_none_mem
            refine List.mem_map.mpr ⟨(r.ticker, (none : Option ℚ)), ?_, rfl⟩
            exact List.mem_map.mpr ⟨r, hr, by rw [hnone]; rfl⟩

/-- C6 counterexample: under market-cap weighting, a selected name with a
`NULL` market cap receives a `NaN` target weight (`clip` keeps `NaN`, the
`skipna` sum is positive, and `NaN / s` is `NaN`), so the produced
allocation's weights do not sum to `1` — their sum is `NaN`. -/
theorem c6_counterexample :
    buildAllocationForDate [rowNullCap, rowCap] 2 "market_cap"
      = some [("A", none), ("B", some 1)] ∧
    sqlSum ([("A", (none : Option ℚ)), ("B", some 1)].map Prod.snd) = none ∧
    ∀ q : ℚ, sqlSum ([("A", (none : Option ℚ)), ("B", some 1)].map Prod.snd)
      ≠ some q := by
  refine ⟨?_, rfl, fun q => by simp [sqlSum, sqlAdd]⟩
  simp [buildAllocationForDate, sortScoreDesc, rowNullCap, rowCap,
    List.insertionSort, List.orderedInsert, scoreGE] <;> norm_num

/-- C6 (amended): every produced allocation holds at most `top_n` names;
under equal weighting, under the `≤ 0` clipped-cap-sum fallback (which then
also yields the equal weights), and under market-cap weighting when every
selected market cap is non-`NULL`, the target weights are all defined and
sum to exactly `1` (hence within the claimed `1e-9`); but under market-cap
weighting with a positive clipped-cap sum, any selected name with a `NULL`
market cap receives a `NaN` target weight and the weight sum is `NaN`
rather than `1`. -/
theorem c6_allocation_invariants (scored : List Row) (topn : ℕ) (wm : String)
    (periodOf : ℕ → ℕ) :
    ∀ dws ∈ buildAllocations scored topn wm periodOf,
      dws.2.length ≤ topn ∧
      (wm = "equal" → sqlSum (dws.2.map Prod.snd) = some 1) ∧
      (wm ≠ "equal" →
        ((((sortScoreDesc (scored.filter (fun r => r.event_date = dws.1))).take
          topn).map (fun r => r.market_cap.map (fun c => max c 0))).filterMap
            id).sum ≤ 0 →
        dws.2 = ((sortScoreDesc (scored.filter
          (fun r => r.event_date = dws.1))).take topn).map (fun r => (r.ticker,
            some (1 / ((((sortScoreDesc (scored.filter
              (fun r => r.event_date = dws.1))).take topn).length : ℚ))))) ∧
        sqlSum (dws.2.map Prod.snd) = some 1) ∧
      (wm ≠ "equal" →
        0 < ((((sortScoreDesc (scored.filter
          (fun r => r.event_date = dws.1))).take topn).map
            (fun r => r.market_cap.map (fun c => max c 0))).filterMap id).sum →
        ((∀ r ∈ (sortScoreDesc (scored.filter
            (fun r => r.event_date = dws.1))).take topn, r.market_cap ≠ none) →
          sqlSum (dws.2.map Prod.snd) = some 1) ∧
        (∀ r ∈ (sortScoreDesc (scored.filter
            (fun r => r.event_date = dws.1))).take topn, r.market_cap = none →
          (r.ticker, (none : Option ℚ)) ∈ dws.2 ∧
          sqlSum (dws.2.map Prod.snd) = none)) := by
  intro dws hmem
  rw [buildAllocations] at hmem
  rcases List.mem_filterMap.mp hmem with ⟨d, _, hopt⟩
  rcases Option.map_eq_some'.mp hopt with ⟨ws, hws, rfl⟩
  exact allocationForDate_invariants hws

/-- C6 witness: the invariants instantiated on a one-row universe with
`top_n = 1` and equal weighting. -/
theorem c6_allocation_invariants_witness :
    ([("A", some (1 / ((1 : ℕ) : ℚ)))] : List (String × Option ℚ)).length ≤ 1 ∧
    sqlSum (([("A", some (1 / ((1 : ℕ) : ℚ)))] :
      List (String × Option ℚ)).map Prod.snd) = some 1 := by
  have hmem : ((0 : ℕ), [("A", some (1 / ((1 : ℕ) : ℚ)))])
      ∈ buildAllocations [rowA] 1 "equal" id := by
    rw [show buildAllocations [rowA] 1 "equal" id
      = [(0, [("A", some (1 / ((1 : ℕ) : ℚ)))])] from rfl]
    exact List.mem_singleton.mpr rfl
  obtain ⟨h1, h2, _⟩ :=
    c6_allocation_invariants [rowA] 1 "equal" id _ hmem
  exact ⟨h1, h2 rfl⟩

/-! ## C4 -/

theorem groupByDate_date_eq : ∀ (l : List Row), ∀ g ∈ groupByDate l,
    ∀ a ∈ g, ∀ b ∈ g, a.event_date = b.event_date := by
  intro l
  induction l with
  | nil => intro g hg; simp [groupByDate] at hg
  | cons r rs ih =>
    intro g hg a ha b hb
    rw [groupByDate] at hg
    rcases hrs : groupByDate rs with _ | ⟨g1, gs⟩ <;> rw [hrs] at hg
    · simp at hg
      subst hg
      simp at ha hb
      rw [ha, hb]
    · cases g1 with
      | nil =>
        simp at hg
        rcases hg with hg | hg
        · subst hg
          simp at ha hb
          rw [ha, hb]
        · exact ih g (by rw [hrs]; exact List.mem_cons_of_mem _ hg) a ha b hb
      | cons s g0 =>
        dsimp only at hg
        by_cases hd : r.event_date = s.event_date
        · rw [if_pos hd] at hg
          simp only [List.mem_cons] at hg
          rcases hg with hg | hg
          · subst hg
            have key : ∀ x ∈ (r :: s :: g0 : List Row),
                x.event_date = s.event_date := by
              intro x hx
              rcases List.mem_cons.mp hx with rfl | hx
              · exact hd
              · exact ih (s :: g0) (by rw [hrs]; exact List.mem_cons_self _ _)
                  x hx s (List.mem_cons_self _ _)
            rw [key a ha, key b hb]
          · exact ih g (by rw [hrs]; exact List.mem_cons_of_mem _ hg) a ha b hb
        · rw [if_neg hd] at hg
          simp only [List.mem_cons] at hg
          rcases hg with hg | hg | hg
          · subst hg
            simp at ha hb
            rw [ha, hb]
          · subst hg
            exact ih (s :: g0) (by rw [hrs]; exact List.mem_cons_self _ _)
              a ha b hb
          · exact ih g (by rw [hrs]; exact List.mem_cons_of_mem _ hg) a ha b hb

theorem groupByDate_sublist : ∀ (l : List Row), ∀ g ∈ groupByDate l,
    List.Sublist g l := by
  intro l
  induction l with
  | nil => intro g hg; simp [groupByDate] at hg
  | cons r rs ih =>
    intro g hg
    rw [groupByDate] at hg
    rcases hrs : groupByDate rs with _ | ⟨g1, gs⟩ <;> rw [hrs] at hg
    · simp at hg
      subst hg
      exact List.singleton_sublist.mpr (by simp)
    · cases g1 with
      | nil =>
        simp at hg
        rcases hg with hg | hg
        · subst hg
          exact List.singleton_sublist.mpr (by simp)
        · exact (ih g (by rw [hrs]; exact List.mem_cons_of_mem _ hg)).trans
            (List.sublist_cons_self _ _)
      | cons s g0 =>
        dsimp only at hg
        by_cases hd : r.event_date = s.event_date
        · rw [if_pos hd] at hg
          simp only [List.mem_cons] at hg
          rcases hg with hg | hg
          · subst hg
            exact (ih (s :: g0)
              (by rw [hrs]; exact List.mem_cons_self _ _)).cons₂ r
          · exact (ih g (by rw [hrs]; exact List.mem_cons_of_mem _ hg)).trans
              (List.sublist_cons_self _ _)
        · rw [if_neg hd] at hg
          simp only [List.mem_cons] at hg
          rcases hg with hg | hg | hg
          · subst hg
            exact List.singleton_sublist.mpr (by simp)
          · subst hg
            exact (ih (s :: g0)
              (by rw [hrs]; exact List.mem_cons_self _ _)).trans
              (List.sublist_cons_self _ _)
          · exact (ih g (by rw [hrs]; exact List.mem_cons_of_mem _ hg)).trans
              (List.sublist_cons_self _ _)

theorem groupByDate_ne_nil : ∀ l : List Row, [] ∉ groupByDate l := by
  intro l
  induction l with
  | nil => simp [groupByDate]
  | cons r rs ih =>
    rw [groupByDate]
    rcases hrs : groupByDate rs with _ | ⟨g1, gs⟩
    · simp
    · cases g1 with
      | nil =>
        rw [hrs] at ih
        exact absurd (List.mem_cons_self [] gs) (fun h => ih h)
      | cons s g0 =>
        rw [hrs] at ih
        dsimp only
        by_cases hd : r.event_date = s.event_date
        · rw [if_pos hd]
          intro hmem
          rcases List.mem_cons.mp hmem with hg | hg
          · exact List.noConfusion hg
          · exact ih (List.mem_cons_of_mem _ hg)
        · rw [if_neg hd]
          intro hmem
          rcases List.mem_cons.mp hmem with hg | hg
          · exact List.noConfusion hg
          · exact ih hg

theorem groupByDate_dates_lt : ∀ (l : List Row),
    l.Pairwise (fun a b => a.event_date ≤ b.event_date) →
    (groupByDate l).Pairwise
      (fun g1 g2 => ∀ x ∈ g1, ∀ y ∈ g2, x.event_date < y.event_date) := by
  intro l
  induction l with
  | nil => intro _; simp [groupByDate]
  | cons r rs ih =>
    intro hp
    rcases List.pairwise_cons.mp hp with ⟨hr, hrs2⟩
    have ihg := ih hrs2
    rw [groupByDate]
    rcases hrs : groupByDate rs with _ | ⟨g1, gs⟩
    · exact List.pairwise_singleton _ _
    · cases g1 with
      | nil =>
        exact absurd (hrs ▸ List.mem_cons_self [] gs) (groupByDate_ne_nil rs)
      | cons s g0 =>
        rw [hrs] at ihg
        dsimp only
        have hs_rs : s ∈ rs :=
          (groupByDate_sublist rs (s :: g0)
            (by rw [hrs]; exact List.mem_cons_self _ _)).subset
            (List.mem_cons_self _ _)
        have hdate_g : ∀ y ∈ (s :: g0 : List Row),
            y.event_date = s.event_date := fun y hy =>
          groupByDate_date_eq rs (s :: g0)
            (by rw [hrs]; exact List.mem_cons_self _ _) y hy s
            (List.mem_cons_self _ _)
        by_cases hd : r.event_date = s.event_date
        · rw [if_pos hd]
          rcases List.pairwise_cons.mp ihg with ⟨hhead, htail⟩
          refine List.pairwise_cons.mpr ⟨?_, htail⟩
          intro g2 hg2 x hx y hy
          rcases List.mem_cons.mp hx with rfl | hx
          · rw [show x.event_date = s.event_date from hd]
            exact hhead g2 hg2 s (List.mem_cons_self _ _) y hy
          · exact hhead g2 hg2 x hx y hy
        · rw [if_neg hd]
          refine List.pairwise_cons.mpr ⟨?_, ihg⟩
          intro g2 hg2 x hx y hy
          rcases List.mem_singleton.mp hx with rfl
          have h1 : x.event_date ≤ s.event_date := hr s hs_rs
          rcases List.mem_cons.mp hg2 with rfl | hg2
          · rw [hdate_g y hy]
            exact lt_of_le_of_ne h1 hd
          · rcases List.pairwise_cons.mp ihg with ⟨hhead, _⟩
            exact lt_of_le_of_lt h1
              (hhead g2 hg2 s (List.mem_cons_self _ _) y hy)

theorem tieOK_of_not_scoreGE {a b : Row} (h : ¬ scoreGE a b) : tieOK b a := by
  intro _ hsc
  exact absurd (le_of_eq hsc) h

theorem tieOK_of_not_dateScoreLE {a b : Row} (h : ¬ dateScoreLE a b) :
    tieOK b a := by
  intro hd hsc
  exact absurd (Or.inr ⟨hd.symm, le_of_eq hsc⟩ : dateScoreLE a b) h

theorem pairwise_tieOK_orderedInsert (r : Row → Row → Prop) [DecidableRel r]
    (hvac : ∀ a b : Row, ¬ r a b → tieOK b a) :
    ∀ (x : Row) (l : List Row), l.Pairwise tieOK → (∀ y ∈ l, tieOK x y) →
      (l.orderedInsert r x).Pairwise tieOK
  | _, [], _, _ => List.pairwise_singleton _ _
  | x, hd :: t, hp, hx => by
    rw [List.orderedInsert]
    rcases List.pairwise_cons.mp hp with ⟨hhd, ht⟩
    by_cases hr : r x hd
    · rw [if_pos hr]
      exact List.pairwise_cons.mpr ⟨hx, hp⟩
    · rw [if_neg hr]
      refine List.pairwise_cons.mpr
        ⟨?_, pairwise_tieOK_orderedInsert r hvac x t ht
          (fun y hy => hx y (by simp [hy]))⟩
      intro z hz
      rcases (List.mem_orderedInsert r).mp hz with heq | hz
      · subst heq
        exact hvac _ hd hr
      · exact hhd z hz

theorem pairwise_tieOK_insertionSort (r : Row → Row → Prop) [DecidableRel r]
    (hvac : ∀ a b : Row, ¬ r a b → tieOK b a) :
    ∀ l : List Row, l.Pairwise tieOK →
      (List.insertionSort r l).Pairwise tieOK
  | [], _ => List.Pairwise.nil
  | b :: l, hp => by
    rw [List.insertionSort]
    rcases List.pairwise_cons.mp hp with ⟨hb, hl⟩
    exact pairwise_tieOK_orderedInsert r hvac b _
      (pairwise_tieOK_insertionSort r hvac l hl)
      (fun y hy => hb y ((List.mem_insertionSort r).mp hy))

theorem nearestPos_cons_cons (d x y : ℕ) (rest : List ℕ) :
    nearestPos d (x :: y :: rest) =
      if natDist x d < natDist ((y :: rest).getD (nearestPos d (y :: rest)) 0) d
      then 0 else nearestPos d (y :: rest) + 1 := rfl

theorem nearestPos_lt_length (d : ℕ) :
    ∀ (idx : List ℕ), idx ≠ [] → nearestPos d idx < idx.length
  | [], h => absurd rfl h
  | [_], _ => by simp [nearestPos]
  | x :: y :: rest, _ => by
    rw [nearestPos_cons_cons]
    split
    · simp
    · have := nearestPos_lt_length d (y :: rest) (by simp)
      simp only [List.length_cons] at this ⊢
      omega

theorem nearestPos_min (d : ℕ) :
    ∀ (idx : List ℕ) (q : ℕ), q < idx.length →
      natDist (idx.getD (nearestPos d idx) 0) d ≤ natDist (idx.getD q 0) d
  | [], q, h => by simp at h
  | [x], q, h => by
    have hq : q = 0 := by simpa using h
    subst hq
    simp [nearestPos]
  | x :: y :: rest, q, h => by
    rw [nearestPos_cons_cons]
    by_cases hlt : natDist x d
        < natDist ((y :: rest).getD (nearestPos d (y :: rest)) 0) d
    · rw [if_pos hlt]
      cases q with
      | zero => simp
      | succ q2 =>
        have hmin := nearestPos_min d (y :: rest) q2 (by simpa using h)
        simp only [List.getD_cons_zero, List.getD_cons_succ]
        exact le_trans (le_of_lt hlt) hmin
    · rw [if_neg hlt]
      push_neg at hlt
      cases q with
      | zero =>
        simp only [List.getD_cons_zero, List.getD_cons_succ]
        exact hlt
      | succ q2 =>
        have hmin := nearestPos_min d (y :: rest) q2 (by simpa using h)
        simp only [List.getD_cons_succ]
        exact hmin

theorem effectDate_mem {idx : List ℕ} {d t : ℕ}
    (h : effectDate idx d = some t) : t ∈ idx :=
  List.get?_mem h

theorem effectDate_gt {idx : List ℕ} {d : ℕ}
    (hs : List.Sorted (· < ·) idx) :
    ∀ t, effectDate idx d = some t → d < t := by
  intro t h
  rw [effectDate] at h
  rcases List.get?_eq_some.mp h with ⟨hplen, ht⟩
  have hplt : nearestPos d idx < idx.length := Nat.lt_of_succ_lt hplen
  by_contra hle
  push_neg at hle
  have hsorted : idx.get ⟨nearestPos d idx, hplt⟩
      < idx.get ⟨nearestPos d idx + 1, hplen⟩ :=
    List.Sorted.rel_get_of_lt hs (by simp [Fin.lt_def])
  have hmin := nearestPos_min d idx (nearestPos d idx + 1) hplen
  rw [List.getD_eq_get?, List.getD_eq_get?,
    List.get?_eq_get hplt, List.get?_eq_get hplen] at hmin
  simp only [Option.getD_some] at hmin
  rw [ht] at hsorted hmin
  rw [natDist, natDist] at hmin
  omega

theorem effectDate_first {idx : List ℕ} {d : ℕ}
    (hs : List.Sorted (· < ·) idx) (hd : d ∈ idx) :
    ∀ t, effectDate idx d = some t → isFirstAfter idx d t := by
  intro t h
  refine ⟨effectDate_mem h, effectDate_gt hs t h, ?_⟩
  intro u hu hdu
  rw [effectDate] at h
  rcases List.get?_eq_some.mp h with ⟨hplen, ht⟩
  have hplt : nearestPos d idx < idx.length := Nat.lt_of_succ_lt hplen
  rcases List.mem_iff_get.mp hd with ⟨qf, hqf⟩
  have hmin := nearestPos_min d idx qf qf.2
  rw [List.getD_eq_get?, List.getD_eq_get?, List.get?_eq_get hplt,
    List.get?_eq_get qf.2] at hmin
  simp only [Option.getD_some, Fin.eta, hqf] at hmin
  have hpd : idx.get ⟨nearestPos d idx, hplt⟩ = d := by
    rw [natDist, natDist] at hmin
    omega
  rcases List.mem_iff_get.mp hu with ⟨jf, hjf⟩
  have hpj : nearestPos d idx < (jf : ℕ) := by
    by_contra hle
    push_neg at hle
    rcases Nat.lt_or_ge (jf : ℕ) (nearestPos d idx) with hlt | hge
    · have : idx.get jf < idx.get ⟨nearestPos d idx, hplt⟩ :=
        List.Sorted.rel_get_of_lt hs (by simpa [Fin.lt_def] using hlt)
      rw [hjf, hpd] at this
      omega
    · have hje : (jf : ℕ) = nearestPos d idx := le_antisymm hle hge
      have : idx.get jf = d := by
        rw [show jf = (⟨nearestPos d idx, hplt⟩ : Fin idx.length) from
          Fin.ext hje, hpd]
      rw [hjf] at this
      omega
  rcases Nat.lt_or_ge (nearestPos d idx + 1) (jf : ℕ) with hlt | hge
  · have : idx.get ⟨nearestPos d idx + 1, hplen⟩ < idx.get jf :=
      List.Sorted.rel_get_of_lt hs (by simpa [Fin.lt_def] using hlt)
    rw [hjf, ht] at this
    omega
  · have hje : (jf : ℕ) = nearestPos d idx + 1 := by omega
    have : idx.get jf = t := by
      rw [show jf = (⟨nearestPos d idx + 1, hplen⟩ : Fin idx.length) from
        Fin.ext hje, ht]
    rw [hjf] at this
    omega

/-- C5 counterexample: with the pricing index `[0, 10, 11]` and a rebalance
date `9` that is not itself a pricing date, the nearest index entry is `10`,
so the allocation takes effect at `11` — not at `10`, the first pricing date
strictly after `9`. -/
theorem c5_counterexample :
    effectDate [0, 10, 11] 9 = some 11 ∧ ¬ isFirstAfter [0, 10, 11] 9 11 ∧
    isFirstAfter [0, 10, 11] 9 10 := by decide

/-- C5 (amended): an allocation decided on rebalance date `D` always takes
effect strictly after `D` (so it is never reflected on any pricing date
`≤ D`), and if every pricing date is `≤ D` it is never applied; when `D`
itself is a pricing date the effect date is exactly the first pricing date
strictly after `D`, but when `D` is absent from the pricing index the
nearest-position rule may skip past that first date. -/
theorem c5_execution_lag (idx : List ℕ) (d : ℕ)
    (hs : List.Sorted (· < ·) idx) :
    (∀ t, effectDate idx d = some t → d < t) ∧
    ((∀ x ∈ idx, x ≤ d) → effectDate idx d = none) ∧
    (d ∈ idx → ∀ t, effectDate idx d = some t → isFirstAfter idx d t) := by
  refine ⟨effectDate_gt hs, ?_, effectDate_first hs⟩
  intro hall
  cases he : effectDate idx d with
  | none => rfl
  | some t =>
    have h1 := effectDate_gt hs t he
    have h2 := hall t (effectDate_mem he)
    omega

/-- C5 witness: the lag statement instantiated on concrete pricing
indices. -/
theorem c5_execution_lag_witness :
    (4 : ℕ) < 9 ∧ isFirstAfter [2, 4, 9] 4 9 ∧
    effectDate [9, 10] 11 = none := by
  obtain ⟨h1, _, h3⟩ := c5_execution_lag [2, 4, 9] 4 (by decide)
  exact ⟨h1 9 (by decide), h3 (by decide) 9 (by decide),
    (c5_execution_lag [9, 10] 11 (by decide)).2.1 (by decide)⟩

/-! ## C10 -/

theorem upsert_not_mem {β : Type} {l : List (String × β)} {t : String}
    (h : t ∉ l.map Prod.fst) (v : β) : upsert l t v = l ++ [(t, v)] := by
  rw [upsert, if_neg]
  intro hc
  rcases List.any_eq_true.mp hc with ⟨p, hp, he⟩
  exact h (List.mem_map.mpr ⟨p, hp, by simpa using he⟩)

theorem rebalance_foldl (c : ℚ) :
    ∀ (valid : List (String × ℚ × ℚ)) (acc : List (String × Option ℚ)),
      (valid.map Prod.fst).Nodup →
      (∀ t ∈ valid.map Prod.fst, t ∉ acc.map Prod.fst) →
      valid.foldl (fun acc2 twp =>
          if twp.2.2 ≤ 0 ∨ twp.2.1 ≤ 0 then acc2
          else upsert acc2 twp.1 (some (c * twp.2.1 / twp.2.2))) acc
        = acc ++ (valid.filter
            (fun twp => decide (0 < twp.2.2 ∧ 0 < twp.2.1))).map
              (fun twp => (twp.1, some (c * twp.2.1 / twp.2.2)))
  | [], acc, _, _ => by simp
  | twp :: rest, acc, hnd, hdisj => by
    rw [List.foldl_cons]
    have hnd2 : twp.1 ∉ rest.map Prod.fst ∧ (rest.map Prod.fst).Nodup := by
      rw [List.map_cons, List.nodup_cons] at hnd
      exact hnd
    have hndr := hnd2.2
    have hhead := hnd2.1
    by_cases hc : twp.2.2 ≤ 0 ∨ twp.2.1 ≤ 0
    · rw [if_pos hc]
      rw [rebalance_foldl c rest acc hndr
        (fun t ht => hdisj t (by simp [ht]))]
      rw [List.filter_cons_of_neg]
      simp only [decide_eq_true_eq, not_and, not_lt]
      intro h1
      rcases hc with hc | hc
      · exact absurd h1 (not_lt.mpr hc)
      · exact hc
    · rw [if_neg hc]
      push_neg at hc
      rw [upsert_not_mem (hdisj twp.1 (by simp)) _]
      rw [rebalance_foldl c rest
        (acc ++ [(twp.1, some (c * twp.2.1 / twp.2.2))]) hndr ?_]
      · rw [List.filter_cons_of_pos (by simp [hc.1, hc.2]), List.map_cons]
        simp
      · intro t ht
        simp only [List.map_append, List.mem_append, List.map_cons] at ht ⊢
        intro hmem
        rcases hmem with hmem | hmem
        · exact hdisj t (by simp [ht]) hmem
        · simp only [List.map_nil, List.mem_singleton] at hmem
          rw [hmem] at ht
          exact hhead ht

theorem keptTargets_cons_none {priceRow : List (String × Option ℚ)}
    {tw : String × ℚ} {rest : List (String × ℚ)}
    (hl : lookupPrice priceRow tw.1 = none) :
    keptTargets (tw :: rest) priceRow = keptTargets rest priceRow := by
  rw [keptTargets, List.filter_cons, hl, keptTargets]
  rfl

theorem keptTargets_cons_some {priceRow : List (String × Option ℚ)}
    {tw : String × ℚ} {rest : List (String × ℚ)} {p : ℚ}
    (hl : lookupPrice priceRow tw.1 = some p) :
    keptTargets (tw :: rest) priceRow =
      if 0 < p ∧ 0 < tw.2 then tw :: keptTargets rest priceRow
      else keptTargets rest priceRow := by
  rw [keptTargets, List.filter_cons, hl, keptTargets]
  by_cases hc : 0 < p ∧ 0 < tw.2
  · rw [if_pos hc, if_pos (decide_eq_true hc)]
  · rw [if_neg hc, if_neg (by simpa using hc)]

theorem validFilterMap (c : ℚ) (priceRow : List (String × Option ℚ))
    (snap : List (String × ℚ)) :
    ((snap.filterMap (fun tw =>
        (lookupPrice priceRow tw.1).map (fun p => (tw.1, tw.2, p)))).filter
      (fun twp => decide (0 < twp.2.2 ∧ 0 < twp.2.1))).map
        (fun twp => (twp.1, some (c * twp.2.1 / twp.2.2)))
      = (keptTargets snap priceRow).map
          (fun tw => (tw.1, (lookupPrice priceRow tw.1).map
            (fun p => c * tw.2 / p))) := by
  induction snap with
  | nil => simp [keptTargets]
  | cons tw rest ih =>
    rw [List.filterMap_cons]
    cases hl : lookupPrice priceRow tw.1 with
    | none =>
      rw [keptTargets_cons_none hl]
      simpa using ih
    | some p =>
      rw [keptTargets_cons_some hl]
      simp only [Option.map_some']
      rw [List.filter_cons]
      by_cases hc : 0 < p ∧ 0 < tw.2
      · rw [if_pos (by simpa using hc), if_pos hc, List.map_cons, ih]
        simp only [List.map_cons, hl, Option.map_some']
      · rw [if_neg (by simpa using hc), if_neg hc, ih]

theorem valid_keys_sublist (priceRow : List (String × Option ℚ)) :
    ∀ snap : List (String × ℚ),
      List.Sublist ((snap.filterMap (fun tw =>
        (lookupPrice priceRow tw.1).map (fun p => (tw.1, tw.2, p)))).map
          Prod.fst) (snap.map Prod.fst)
  | [] => by simp
  | tw :: rest => by
    rw [List.filterMap_cons]
    cases hl : lookupPrice priceRow tw.1 with
    | none =>
      simp only [Option.map_none', List.map_cons]
      exact (valid_keys_sublist priceRow rest).trans
        (List.sublist_cons_self _ _)
    | some p =>
      simp only [Option.map_some', List.map_cons]
      exact (valid_keys_sublist priceRow rest).cons₂ _

theorem valid_keys_nodup {priceRow : List (String × Option ℚ)}
    {snap : List (String × ℚ)} (hnd : (snap.map Prod.fst).Nodup) :
    ((snap.filterMap (fun tw =>
        (lookupPrice priceRow tw.1).map (fun p => (tw.1, tw.2, p)))).map
      Prod.fst).Nodup :=
  hnd.sublist (valid_keys_sublist priceRow snap)

theorem markValue_kept (c : ℚ) (priceRow : List (String × Option ℚ)) :
    ∀ (l : List (String × ℚ)),
      (∀ tw ∈ l, ∃ p, lookupPrice priceRow tw.1 = some p ∧ 0 < p) →
      ∀ a : ℚ,
      (l.map (fun tw => (tw.1, (lookupPrice priceRow tw.1).map
          (fun p => c * tw.2 / p)))).foldl
        (fun acc tq =>
          match acc, tq.2, lookupPrice priceRow tq.1 with
          | some x, some q, some p => some (x + q * p)
          | _, _, _ => none) (some a)
      = some (a + c * (l.map Prod.snd).sum)
  | [], _, a => by simp
  | tw :: rest, h, a => by
    rcases h tw (by simp) with ⟨p, hl, hp⟩
    rw [List.map_cons, List.foldl_cons]
    simp only [hl, Option.map_some']
    rw [div_mul_cancel₀ _ (ne_of_gt hp)]
    rw [markValue_kept c priceRow rest
      (fun tw2 h2 => h tw2 (by simp [h2])) (a + c * tw.2)]
    rw [List.map_cons, List.sum_cons]
    ring_nf

/-- C10 counterexample: a single target whose price on the effect date is
present but `0` is skipped inside the rebuild loop, after the holdings were
already reset — the previous holdings are liquidated to an empty portfolio,
not kept. -/
theorem c10_counterexample :
    rebalanceStep (some 100) [("S", some 1)] [("T", 1)] [("T", some 0)] = [] ∧
    ([] : List (String × Option ℚ)) ≠ [("S", some 1)] := by
  constructor
  · rfl
  · simp

/-- C10 (amended): on a lagged allocation's effect date, a target with
missing (`NaN`) price, non-positive price, or non-positive weight is
silently dropped and its weight fraction of capital is invested in nothing —
the new holdings are exactly the kept targets with `capital * weight /
price` shares each, whose marked value is `capital *` (sum of kept weights),
so the dropped fraction is recorded nowhere; the previous holdings are kept
unchanged only when every target's price is missing — if some price is
present but every present target is skipped, the holdings become the empty
portfolio instead. -/
theorem c10_dropped_targets (c : ℚ) (cur : List (String × Option ℚ))
    (snap : List (String × ℚ)) (priceRow : List (String × Option ℚ))
    (hnd : (snap.map Prod.fst).Nodup) :
    ((∀ tw ∈ snap, lookupPrice priceRow tw.1 = none) →
      rebalanceStep (some c) cur snap priceRow = cur) ∧
    ((∃ tw ∈ snap, (lookupPrice priceRow tw.1).isSome) →
      rebalanceStep (some c) cur snap priceRow
        = (keptTargets snap priceRow).map
            (fun tw => (tw.1, (lookupPrice priceRow tw.1).map
              (fun p => c * tw.2 / p)))) ∧
    ((∃ tw ∈ snap, (lookupPrice priceRow tw.1).isSome) →
      markValue (rebalanceStep (some c) cur snap priceRow) priceRow
        = some (c * ((keptTargets snap priceRow).map Prod.snd).sum)) ∧
    ((∃ tw ∈ snap, (lookupPrice priceRow tw.1).isSome) →
      keptTargets snap priceRow = [] →
      rebalanceStep (some c) cur snap priceRow = []) := by
  have hstep : (∃ tw ∈ snap, (lookupPrice priceRow tw.1).isSome) →
      rebalanceStep (some c) cur snap priceRow
        = (keptTargets snap priceRow).map
            (fun tw => (tw.1, (lookupPrice priceRow tw.1).map
              (fun p => c * tw.2 / p))) := by
    intro hex
    rcases hex with ⟨tw, htw, hsome⟩
    rcases Option.isSome_iff_exists.mp hsome with ⟨p, hp⟩
    have hmem : (tw.1, tw.2, p) ∈ snap.filterMap (fun tw =>
        (lookupPrice priceRow tw.1).map (fun p => (tw.1, tw.2, p))) :=
      List.mem_filterMap.mpr ⟨tw, htw, by rw [hp]; rfl⟩
    have hvne : (snap.filterMap (fun tw =>
        (lookupPrice priceRow tw.1).map (fun p => (tw.1, tw.2, p)))).isEmpty
        = false := by
      rcases hO : snap.filterMap (fun tw =>
        (lookupPrice priceRow tw.1).map (fun p => (tw.1, tw.2, p))) with _ | _
      · rw [hO] at hmem; simp at hmem
      · rw [hO]; rfl
    simp only [rebalanceStep, hvne, Bool.false_eq_true, if_false,
      Option.map_some']
    rw [rebalance_foldl c _ [] (valid_keys_nodup hnd) (by simp)]
    rw [List.nil_append, validFilterMap]
  have hkeptprop : ∀ tw ∈ keptTargets snap priceRow,
      ∃ p, lookupPrice priceRow tw.1 = some p ∧ 0 < p := by
    intro tw htw
    have hf := List.mem_filter.mp htw
    cases hl : lookupPrice priceRow tw.1 with
    | none => rw [hl] at hf; simp at hf
    | some p =>
      rw [hl] at hf
      exact ⟨p, rfl, (of_decide_eq_true hf.2).1⟩
  refine ⟨?_, hstep, ?_, ?_⟩
  · intro hall
    have hv : snap.filterMap (fun tw =>
        (lookupPrice priceRow tw.1).map (fun p => (tw.1, tw.2, p))) = [] :=
      List.filterMap_eq_nil.mpr (fun tw htw => by rw [hall tw htw]; rfl)
    simp only [rebalanceStep, hv]
    rfl
  · intro hex
    rw [hstep hex, markValue]
    rw [markValue_kept c priceRow _ hkeptprop 0]
    rw [zero_add]
  · intro hex hkept
    rw [hstep hex, hkept]
    rfl

/-- C10 witness: the rebalance-body statement instantiated on a concrete
kept target and on a concrete all-missing snapshot. -/
theorem c10_dropped_targets_witness :
    markValue (rebalanceStep (some 100) [("S", some 1)] [("T", 2)]
        [("T", some 4)]) [("T", some 4)]
      = some (100 * ((keptTargets [("T", 2)] [("T", some 4)]).map
          Prod.snd).sum) ∧
    rebalanceStep (some 100) [("S", some 1)] [("T", 2)] [] = [("S", some 1)] := by
  constructor
  · exact (c10_dropped_targets 100 [("S", some 1)] [("T", 2)] [("T", some 4)]
      (by simp)).2.2.1 ⟨("T", 2), by simp, by rw [show lookupPrice
        [("T", some 4)] "T" = some 4 from rfl]; rfl⟩
  · exact (c10_dropped_targets 100 [("S", some 1)] [("T", 2)] []
      (by simp)).1 (fun tw _ => rfl)

end Quantimizer
